import Mathlib

/-
Verification of the variant-identity-resolution engine in `convert.py`
(functions `ensure_four`, `lift_over`, `lift_rsids`, `neale_wrangler`).

The polars dataframe code is shallowly embedded as follows.

* A string cell is `Str := List Char`; a nullable cell is `Option Str`.
* A polars `when(cond).then(t).otherwise(e)` expression is `whenO`: a null
  condition produces a null result (and in every use below both branches are
  null whenever the condition is null, so nothing depends on that choice).
* The regular-expression operations of the source are embedded by dedicated
  matchers.  The source patterns are
    rsid_pat  = "(?i)rs[0-9]+"
    neale_pat = "(?i)[0-9XY]{1,2}[_:\\+][0-9]+[_:\\+][AGCT]+[_:\\+][AGCT]+"
  and `str.contains` / `str.extract` perform a leftmost REGEX SEARCH (not a
  full match).  For these particular patterns the adjacent character classes
  are pairwise disjoint, so greedy maximal-munch matching coincides with the
  leftmost-first semantics of the regex engine used by polars; the matchers
  below implement exactly that.
-/

set_option autoImplicit false
set_option maxRecDepth 20000

abbrev Str := List Char

/-- ASCII lower-casing of one character, mirroring `str.to_lowercase` on the
ASCII inputs handled by the pipeline. -/
def lowChar (c : Char) : Char :=
  if 65 ≤ c.toNat ∧ c.toNat ≤ 90 then Char.ofNat (c.toNat + 32) else c

/-- ASCII upper-casing of one character, mirroring `str.to_uppercase` on the
ASCII inputs handled by the pipeline. -/
def upChar (c : Char) : Char :=
  if 97 ≤ c.toNat ∧ c.toNat ≤ 122 then Char.ofNat (c.toNat - 32) else c

def lowerStr (s : Str) : Str := s.map lowChar

def upperStr (s : Str) : Str := s.map upChar

/-- `[0-9]` -/
def isDigitCh (c : Char) : Bool := 48 ≤ c.toNat && c.toNat ≤ 57

/-- the separator class `[_:+]` of `neale_pat` -/
def isSepCh (c : Char) : Bool := c = '_' || c = ':' || c = '+'

/-- the chromosome class `[0-9XY]` of `neale_pat`, case-insensitive because of
the `(?i)` flag -/
def isChromCh (c : Char) : Bool := isDigitCh c || c = 'X' || c = 'Y' || c = 'x' || c = 'y'

/-- the allele class `[AGCT]` of `neale_pat`, case-insensitive -/
def isBaseCh (c : Char) : Bool :=
  c = 'A' || c = 'G' || c = 'C' || c = 'T' || c = 'a' || c = 'g' || c = 'c' || c = 't'

def isRCh (c : Char) : Bool := c = 'r' || c = 'R'

def isSCh (c : Char) : Bool := c = 's' || c = 'S'

/-- `str.replace(pat, "")` of polars replaces only the first occurrence of the
(here literal) pattern. -/
def replaceFirst (pat : Str) : Str → Str
  | [] => []
  | c :: t => if pat.isPrefixOf (c :: t) then (c :: t).drop pat.length else c :: replaceFirst pat t

/-- `str.split("_")` -/
def splitUnd : Str → List Str
  | [] => [[]]
  | c :: t =>
    if c = '_' then [] :: splitUnd t
    else
      match splitUnd t with
      | h :: r => (c :: h) :: r
      | [] => [[c]]

/-- inverse of `splitUnd`, used only in proofs -/
def joinUnd : List Str → Str
  | [] => []
  | [h] => h
  | h :: t => h ++ '_' :: joinUnd t

/-- `str.replace_all(":|\\+", "_")`: every `:` or `+` becomes `_`. -/
def sepNorm (s : Str) : Str :=
  s.map fun c => if c = ':' ∨ c = '+' then '_' else c

/-- one `str.replace_all(a, b)` call with single-character literal arguments -/
def replAll (a b : Char) (s : Str) : Str := s.map fun c => if c = a then b else c

/-- The reverse-complement computation of `neale_wrangler` (lines 325-330 and
355-360): lower-case, then sequentially `a→T`, `g→C`, `c→G`, `t→A`.  Because
the replacements produce upper-case letters, the four sequential passes never
rewrite each other's output. -/
def rcComp (s : Str) : Str :=
  replAll 't' 'A' (replAll 'c' 'G' (replAll 'g' 'C' (replAll 'a' 'T' (lowerStr s))))

/-- maximal run of characters satisfying `p`, together with the rest; `none`
when the run is empty (this is `X+` matching with maximal munch) -/
def takeRun (p : Char → Bool) (l : Str) : Option (Str × Str) :=
  let t := l.takeWhile p
  if t.isEmpty then none else some (t, l.dropWhile p)

/-- Match `[_:+][0-9]+[_:+][AGCT]+[_:+][AGCT]+` at the head of `l`, returning
the matched text.  All the character classes involved are pairwise disjoint,
so maximal munch agrees with the regex engine. -/
def matchAfterChrom (l : Str) : Option Str :=
  match l with
  | [] => none
  | s1 :: l1 =>
    if isSepCh s1 then
      match takeRun isDigitCh l1 with
      | none => none
      | some (d, l2) =>
        match l2 with
        | [] => none
        | s2 :: l3 =>
          if isSepCh s2 then
            match takeRun isBaseCh l3 with
            | none => none
            | some (b1, l4) =>
              match l4 with
              | [] => none
              | s3 :: l5 =>
                if isSepCh s3 then
                  match takeRun isBaseCh l5 with
                  | none => none
                  | some (b2, _) => some (s1 :: d ++ s2 :: b1 ++ s3 :: b2)
                else none
          else none
    else none

/-- Match `neale_pat` at the head of `l`.  `{1,2}` is greedy: two chromosome
characters are preferred; since the chromosome class and the separator class
are disjoint, the one-character alternative is viable only when the second
character is a separator. -/
def matchNealeAt (l : Str) : Option Str :=
  match l with
  | c1 :: c2 :: rest =>
    if isChromCh c1 then
      if isChromCh c2 then (matchAfterChrom rest).map fun m => c1 :: c2 :: m
      else if isSepCh c2 then (matchAfterChrom (c2 :: rest)).map fun m => c1 :: m
      else none
    else none
  | _ => none

/-- leftmost search for `neale_pat`; this is what both `str.contains` and
`str.extract` do on that pattern -/
def findNeale : Str → Option Str
  | [] => none
  | c :: t =>
    match matchNealeAt (c :: t) with
    | some m => some m
    | none => findNeale t

def containsNeale (s : Str) : Bool := (findNeale s).isSome

/-- Match `(?i)rs[0-9]+` at the head of `l`. -/
def matchRsAt (l : Str) : Option Str :=
  match l with
  | c1 :: c2 :: c3 :: rest =>
    if isRCh c1 && isSCh c2 && isDigitCh c3 then
      some (c1 :: c2 :: c3 :: rest.takeWhile isDigitCh)
    else none
  | _ => none

/-- leftmost search for `rsid_pat` -/
def findRs : Str → Option Str
  | [] => none
  | c :: t =>
    match matchRsAt (c :: t) with
    | some m => some m
    | none => findRs t

def containsRs (s : Str) : Bool := (findRs s).isSome

/-- `accepted_pat = rsid_pat | neale_pat`; a search for the alternation
succeeds iff a search for either branch succeeds -/
def containsAccepted (s : Str) : Bool := containsRs s || containsNeale s

/-! ## Nullable cells and `when/then/otherwise` -/
/-- `pl.when(cond).then(t).otherwise(e)` on a nullable Boolean condition.
A null condition yields a null result.  (In every use below both branches
are themselves null whenever the condition is null, so no modelled behavior
depends on this convention.) -/
def whenO (cond : Option Bool) (t e : Option Str) : Option Str :=
  match cond with
  | some true => t
  | some false => e
  | none => none

/-- `pl.concat_str([...], separator="_")`: null if any operand is null. -/
def concatUnd (parts : List (Option Str)) : Option Str :=
  match parts with
  | [] => some []
  | [p] => p
  | p :: rest => match p, concatUnd rest with
    | some s, some r => some (s ++ '_' :: r)
    | _, _ => none

def containsNealeO (s : Option Str) : Option Bool := s.map containsNeale

def containsRsO (s : Option Str) : Option Bool := s.map containsRs

def containsAcceptedO (s : Option Str) : Option Bool := s.map containsAccepted

def notO (b : Option Bool) : Option Bool := b.map not

/-- string literal `"chr"` -/
def chrL : Str := "chr".toList

/-- `"chr" + col` (null-propagating) -/
def addChrO (s : Option Str) : Option Str := s.map fun t => chrL ++ t

/-! ## `ensure_four` (convert.py lines 14-127)

A dataframe is a set of column-presence flags plus a list of rows; a row
carries the (nullable) values of the five identity columns.  Every polars
operation used by `ensure_four` is row-independent, so the `with_columns`
chains become `List.map` and the final `filter` becomes `List.filter`. -/
structure Row where
  snp : Option Str
  chr : Option Str
  bp : Option Str
  a2 : Option Str
  a1 : Option Str
deriving DecidableEq, Repr

structure Table where
  hasSNP : Bool
  hasCHR : Bool
  hasBP : Bool
  hasA2 : Bool
  hasA1 : Bool
  rows : List Row
deriving DecidableEq, Repr

/-- lines 33-46: clean `CHR` (strip first `"chr"`) and synthesize
`SNP = CHR_BP_A2_A1` with upper-cased alleles -/
def synthSnpRow (r : Row) : Row :=
  let chr2 := r.chr.map (replaceFirst chrL)
  { r with
    chr := chr2
    snp := concatUnd [chr2, r.bp, r.a2.map upperStr, r.a1.map upperStr] }

/-- lines 49-54: if `SNP` contains an rsID, replace it by the lower-cased
extracted rsID -/
def cleanRsidRow (r : Row) : Row :=
  { r with snp := whenO (containsRsO r.snp) ((r.snp.bind findRs).map lowerStr) r.snp }

/-- lines 57-67: if `SNP` contains a neale pattern, replace it by the
extracted match with separators normalized to `_` and upper-cased -/
def cleanNealeRow (r : Row) : Row :=
  { r with snp := whenO (containsNealeO r.snp) ((r.snp.bind findNeale).map fun m => upperStr (sepNorm m)) r.snp }

/-- lines 70-80: derive each absent column from component `i` of the
`_`-split `SNP` when `SNP` contains a neale pattern, null otherwise -/
def deriveCol (i : Nat) (r : Row) : Option Str :=
  whenO (containsNealeO r.snp) (r.snp.bind fun s => (splitUnd s).get? i) none

def deriveRow (hasCHR hasBP hasA2 hasA1 : Bool) (r : Row) : Row :=
  { r with
    chr := if hasCHR then r.chr else deriveCol 0 r
    bp := if hasBP then r.bp else deriveCol 1 r
    a2 := if hasA2 then r.a2 else deriveCol 2 r
    a1 := if hasA1 then r.a1 else deriveCol 3 r }

/-- lines 81-85: upper-case alleles, strip first `"chr"` from `CHR` and
upper-case it -/
def fixCaseRow (r : Row) : Row :=
  { r with
    a1 := r.a1.map upperStr
    a2 := r.a2.map upperStr
    chr := r.chr.map fun c => upperStr (replaceFirst chrL c) }

/-- lines 88-99: chromosome code 23 becomes X, then 24 becomes Y -/
def chr2324Row (r : Row) : Row :=
  let c1 : Option Str := whenO (r.chr.map fun c => c = ("23".toList)) (some ("X".toList)) r.chr
  let c2 : Option Str := whenO (c1.map fun c => c = ("24".toList)) (some ("Y".toList)) c1
  { r with chr := c2 }

/-- lines 102-117: regenerate `SNP` from the four columns when it does not
contain an accepted pattern -/
def repairRow (r : Row) : Row :=
  { r with
    snp := whenO (notO (containsAcceptedO r.snp))
      (concatUnd [r.chr, r.bp, r.a2.map upperStr, r.a1.map upperStr]) r.snp }

/-- line 125: keep only rows whose `SNP` contains an accepted pattern -/
def acceptedRow (r : Row) : Bool := containsAcceptedO r.snp == some true

/-- `ensure_four` (lines 14-127).  `none` models the `AssertionError` raised
by `log_check_error` when neither `SNP` nor all of `CHR`, `BP`, `A2`, `A1`
are present. -/
def ensure_four (t : Table) : Option Table :=
  let fourPresent := t.hasCHR && t.hasBP && t.hasA2 && t.hasA1
  if t.hasSNP || fourPresent then
    let rows1 := if t.hasSNP then t.rows else t.rows.map synthSnpRow
    let rows2 := rows1.map cleanRsidRow
    let rows3 := rows2.map cleanNealeRow
    let rows4 := if fourPresent then rows3
                 else rows3.map (deriveRow t.hasCHR t.hasBP t.hasA2 t.hasA1)
    let rows5 := rows4.map fixCaseRow
    let rows6 := rows5.map chr2324Row
    let rows7 := rows6.map repairRow
    some { hasSNP := true, hasCHR := true, hasBP := true, hasA2 := true, hasA1 := true
           rows := rows7.filter acceptedRow }
  else none

/-! ## `neale_wrangler` (convert.py lines 305-452)

A GWAS row here carries the five identity columns plus the values of all
other columns (`other`), which the function never touches.  A dbSNP lookup
shard is a list of `(ID, RSID)` pairs — the join key first — and the shard
directory is an association list from chromosome code to shard, standing for
the `dbSNP_156.chr{c}.lookup.parquet` files found by `os.listdir`. -/
structure NRow where
  snp : Option Str
  chr : Option Str
  bp : Option Str
  a1 : Option Str
  a2 : Option Str
  other : List (Option Str)
deriving DecidableEq, Repr

/-- the four orientation keys computed in lines 320-370, alongside the row -/
structure NCand where
  row : NRow
  snp2 : Option Str
  snpSwitch : Option Str
  rcSnp : Option Str
  rcSnpSwitch : Option Str
deriving DecidableEq, Repr

/-- lines 320-370.  In source order:
  * `RC_SNP` (321-334): `"chr" +` reverse complement of the original `SNP`;
  * `SNP` (335-340): `"chr" +` original `SNP`;
  * `SNP_SWITCH` (341-350): lower-cased `CHR_BP_A1_A2` — note the
    `.str.to_lowercase()` in the source — when the (already prefixed) `SNP`
    contains the neale pattern;
  * `RC_SNP_SWITCH` (351-364): `"chr" +` reverse complement of `SNP_SWITCH`;
  * `SNP_SWITCH` (365-370): `"chr" + SNP_SWITCH`. -/
def mkCand (r : NRow) : NCand :=
  let rcSnp := whenO (containsNealeO r.snp) (addChrO ((r.snp).map rcComp)) r.snp
  let snp2 := whenO (containsNealeO r.snp) (addChrO r.snp) r.snp
  let switchRaw := whenO (containsNealeO snp2)
    ((concatUnd [r.chr, r.bp, r.a1, r.a2]).map lowerStr) snp2
  let rcSnpSwitch := whenO (containsNealeO switchRaw) (addChrO (switchRaw.map rcComp)) switchRaw
  let snpSwitch := whenO (containsNealeO switchRaw) (addChrO switchRaw) switchRaw
  { row := r, snp2 := snp2, snpSwitch := snpSwitch, rcSnp := rcSnp, rcSnpSwitch := rcSnpSwitch }

/-- `lookup.unique().unique(subset=key, keep="none")` (lines 259 and 391):
drop exact duplicate rows, then drop every row whose join key still occurs
more than once. -/
def prepLookup (l : List (Str × Str)) : List (Str × Str) :=
  let u := l.dedup
  u.filter fun p => (u.filter fun q => q.1 == p.1).length == 1

/-- a left join against the prepared lookup on its key column; polars joins
never match null keys -/
def assocLookup (l : List (Str × Str)) (k : Option Str) : Option Str :=
  match k with
  | none => none
  | some key => (l.find? fun p => p.1 == key).map (·.2)

/-- lines 407-430: `when(col.n_unique().over(keyCol) > 1).then(None)`.
`sub` is the chromosome sub-frame; the group of a row consists of the rows
with the same key value, and `n_unique` counts distinct joined values
(nulls included). -/
def guardedVal (sub : List NCand) (keyF : NCand → Option Str) (lk : List (Str × Str))
    (x : NCand) : Option Str :=
  let group := sub.filter fun y => keyF y == keyF x
  let vals := (group.map fun y => assocLookup lk (keyF y)).dedup
  if vals.length > 1 then none else assocLookup lk (keyF x)

/-- lines 388-447 for one chromosome: filter the sub-frame, join the four
orientation keys, coalesce with precedence SNP > SNP_SWITCH > RC_SNP >
RC_SNP_SWITCH, falling back to the (prefixed) `SNP`, and emit
`(SNP, RSID_SNP)` pairs. -/
def chromMapper (cand : List NCand) (c : Str) (sh : List (Str × Str)) :
    List (Option Str × Option Str) :=
  let sub := cand.filter fun x => x.row.chr == some c
  let lk := prepLookup sh
  sub.map fun x =>
    let r1 := guardedVal sub (·.snp2) lk x
    let r2 := guardedVal sub (·.snpSwitch) lk x
    let r3 := guardedVal sub (·.rcSnp) lk x
    let r4 := guardedVal sub (·.rcSnpSwitch) lk x
    (x.snp2, (((r1.orElse fun _ => r2).orElse fun _ => r3).orElse fun _ => r4).orElse fun _ => x.snp2)

/-- `dict(zip(keys, vals))`: later entries overwrite earlier ones. -/
def pyDictFind (m : List (Option Str × Option Str)) (k : Option Str) : Option (Option Str) :=
  (m.reverse.find? fun p => p.1 == k).map (·.2)

/-- `pl.col("SNP").replace(mapper_dict)`: values found in the mapping are
replaced, all others kept. -/
def pyReplace (m : List (Option Str × Option Str)) (v : Option Str) : Option Str :=
  match pyDictFind m v with
  | some w => w
  | none => v

/-- lexicographic order on ASCII strings, as used by `Series.sort()` -/
def lexLt : Str → Str → Bool
  | [], [] => false
  | [], _ :: _ => true
  | _ :: _, [] => false
  | a :: s, b :: t => if a.toNat < b.toNat then true else if b.toNat < a.toNat then false else lexLt s t

def insertLex (a : Str) : List Str → List Str
  | [] => [a]
  | b :: t => if lexLt a b then a :: b :: t else b :: insertLex a t

def sortLex : List Str → List Str
  | [] => []
  | a :: t => insertLex a (sortLex t)

/-- lines 372-379: the sorted unique chromosomes present in the frame that
have a lookup shard (`shards` is the association list of available shards
keyed by chromosome code) -/
def nwChrs (rows : List NRow) (shards : List (Str × List (Str × Str))) : List Str :=
  (sortLex ((rows.filterMap (·.chr)).dedup)).filter
    fun c => (shards.find? fun p => p.1 == c).isSome

/-- lines 384-447: the mapper frame, the concatenation of one
`(SNP, RSID_SNP)` block per chromosome with a shard -/
def nwMapper (cand : List NCand) (rows : List NRow)
    (shards : List (Str × List (Str × Str))) : List (Option Str × Option Str) :=
  (nwChrs rows shards).foldl
    (fun acc c =>
      match shards.find? fun p => p.1 == c with
      | some pr => acc ++ chromMapper cand c pr.2
      | none => acc)
    []

/-- `neale_wrangler` (lines 305-452): compute the orientation keys, build
the mapper frame, then (lines 449-451) apply the python dictionary to the
(prefixed) `SNP` column and drop the three helper columns. -/
def neale_wrangler (rows : List NRow) (shards : List (Str × List (Str × Str))) : List NRow :=
  let cand := rows.map mkCand
  cand.map fun x => { x.row with snp := pyReplace (nwMapper cand rows shards) x.snp2 }

/-! ## `lift_rsids` (convert.py lines 216-302)

Only the `SNP`, `CHR`, `BP` columns and the transient `ID` column
participate; `other` carries the untouched remaining columns.  A shard here
is a list of `(RSID, ID)` pairs — the join key (`RSID`, line 260) first —
and the shard list is given in the directory-listing order in which the
loop of line 251 visits the lookup files. -/
structure LRow where
  snp : Option Str
  chr : Option Str
  bp : Option Str
  other : List (Option Str)
deriving DecidableEq, Repr

/-- One iteration of the loop in lines 251-266 acting on the `(row, ID)`
pairs: line 256 skips the shard when no null `ID` remains; otherwise the
left join on `SNP = RSID` against the deduplicated lookup fills only the
still-null `ID`s. -/
def lrStep (sh : List (Str × Str)) (prs : List (LRow × Option Str)) :
    List (LRow × Option Str) :=
  if prs.all fun pr => pr.2.isSome then prs
  else prs.map fun pr => (pr.1, pr.2.orElse fun _ => assocLookup (prepLookup sh) pr.1.snp)

/-- lines 287-291: `CHR` from component 0 of the `_`-split `ID` with the
first `"chr"` stripped -/
def chrOfID (v : Str) : Option Str := ((splitUnd v).get? 0).map (replaceFirst chrL)

/-- lines 293-298: `BP` from component 1 of the `_`-split `ID` -/
def bpOfID (v : Str) : Option Str := (splitUnd v).get? 1

/-- lines 287-300: overwrite `CHR` and `BP` from a resolved `ID`; keep the
prior values when `ID` is null -/
def applyID (r : LRow) (id : Option Str) : LRow :=
  match id with
  | some v => { r with chr := chrOfID v, bp := bpOfID v }
  | none => r

/-- `lift_rsids` (lines 216-302): initialize `ID` to null (line 248), fold
the shards, then rewrite `CHR`/`BP` and drop `ID`. -/
def lift_rsids (rows : List LRow) (shards : List (List (Str × Str))) : List LRow :=
  let prs0 : List (LRow × Option Str) := rows.map fun r => (r, none)
  let prs := shards.foldl (fun prs sh => lrStep sh prs) prs0
  prs.map fun pr => applyID pr.1 pr.2

/-- the first shard, in visitation order, that resolves `snp` — the
specification-side characterization compared with `lift_rsids` -/
def firstMatch : List (List (Str × Str)) → Option Str → Option Str
  | [], _ => none
  | sh :: rest, snp =>
    match assocLookup (prepLookup sh) snp with
    | some v => some v
    | none => firstMatch rest snp

/-! ## `lift_over` (convert.py lines 130-213)

The claims about `lift_over` concern its error handling and resource
cleanup, so the embedding records the observable effects in order and keeps
the mapped BED lines opaque.  `mapped` is the content of the mapped-output
file after the tool invocation: `none` when the file was never created,
`some []` when the tool wrote an empty file.

Crucial detail of the source (lines 160-168): both existence checks read

    if not os.path.exists(p):
        IOError(f"File ... does not exist ...")

The `IOError(...)` expression CONSTRUCTS an exception object and discards
it — there is no `raise` — so in Python the check has no effect and
execution always proceeds to `subprocess.run`.  The `lift_tool` path is
never checked at all, and the tool's exit status is not inspected.
`pl.read_csv` (line 175) raises `NoDataError` on an empty file and an I/O
error on a missing file; `os.remove` (lines 209-211) runs in straight-line
code after parsing, with no `try/finally`. -/
inductive LiftErr where
  | noData
  | fileNotFound
deriving DecidableEq, Repr

inductive LiftEvent where
  | wroteInput
  | invokedTool
  | removedIntermediates
deriving DecidableEq, Repr

def lift_over (toBeLiftedExists chainExists toolExists : Bool) (mapped : Option (List Str)) :
    List LiftEvent × Except LiftErr (List Str) :=
  let events := [LiftEvent.wroteInput]
  -- line 160: `IOError(...)` evaluated and discarded, never raised
  let _ := if !toBeLiftedExists then some LiftErr.fileNotFound else none
  -- line 165: likewise for the chain file; `lift_tool` (`toolExists`) is
  -- never tested anywhere
  let _ := if !chainExists then some LiftErr.fileNotFound else none
  let _ := toolExists
  -- line 169: `subprocess.run(...)` always reached, exit status ignored
  let events := events ++ [LiftEvent.invokedTool]
  match mapped with
  | none => (events, Except.error LiftErr.fileNotFound)
  | some [] => (events, Except.error LiftErr.noData)
  | some ls => (events ++ [LiftEvent.removedIntermediates], Except.ok ls)

/-! ## Specification-side identifier shapes

These definitions follow the spec's words (section 3 invariant and the C2
claim): they are the shapes the claims assert about output identifiers, to
be compared with what the embedded code actually produces. -/
/-- upper-case chromosome character: a digit, `X` or `Y` -/
def isChromU (c : Char) : Bool := isDigitCh c || c = 'X' || c = 'Y'

/-- upper-case allele character -/
def isBaseU (c : Char) : Bool := c = 'A' || c = 'C' || c = 'G' || c = 'T'

/-- exactly lowercase `rs` followed by one or more digits -/
def exactRsLower : Str → Bool
  | c1 :: c2 :: d :: ds => c1 = 'r' && c2 = 's' && isDigitCh d && ds.all isDigitCh
  | _ => false

/-- exactly `{chrom}_{position}_{allele}_{allele}` in canonical form: one or
two chromosome characters over digits/X/Y, a digit position, upper-case
alleles, `_` separators -/
def canonPositional (s : Str) : Bool :=
  match splitUnd s with
  | [c, p, x, y] =>
    (c.length == 1 || c.length == 2) && c.all isChromU
      && !p.isEmpty && p.all isDigitCh
      && !x.isEmpty && x.all isBaseU && !y.isEmpty && y.all isBaseU
  | _ => false

/-- the chromosome components 1-22, X, Y allowed by the C2 claim -/
def chromAllowed (c : Str) : Bool :=
  (["1", "2", "3", "4", "5", "6", "7", "8", "9", "10", "11", "12",
    "13", "14", "15", "16", "17", "18", "19", "20", "21", "22", "X", "Y"].map
      String.toList).contains c

/-- the exact identifier shape asserted by claim C2: a canonical rsID, or a
canonical positional identifier whose chromosome component is 1-22, X or Y -/
def claimShapeC2 (s : Str) : Bool :=
  exactRsLower s ||
    (match splitUnd s with
     | [c, p, x, y] =>
       chromAllowed c && !p.isEmpty && p.all isDigitCh
         && !x.isEmpty && x.all isBaseU && !y.isEmpty && y.all isBaseU
     | _ => false)

/-! ## Rows left fixed by a second `ensure_four` pass -/
/-- a row as produced by a first `ensure_four` pass whose identifier is
EXACTLY one accepted shape (not merely a string containing a match): the
identifier is a canonical rsID or canonical positional identifier, the
chromosome is absent or already stripped/upper-cased and not the literal
23/24, and the alleles are absent or already upper-case -/
def rowCanonical (r : Row) : Bool :=
  (match r.snp with
   | some s => exactRsLower s || canonPositional s
   | none => false)
  && (match r.chr with
      | none => true
      | some c => replaceFirst chrL c == c && upperStr c == c
          && !(c == ("23".toList)) && !(c == ("24".toList)))
  && (match r.a1 with | none => true | some a => upperStr a == a)
  && (match r.a2 with | none => true | some a => upperStr a == a)

/-! ## Frame of `neale_wrangler` -/
/-- everything in a row except the identifier -/
def nrowFrame (r : NRow) :
    Option Str × Option Str × Option Str × Option Str × List (Option Str) :=
  (r.chr, r.bp, r.a1, r.a2, r.other)

/-! ## Concrete inputs used by the claims -/
def c1_shard : List (Str × Str) := [("chr8_60009_G_T".toList, "rs999".toList)]

def c1_rowTG : NRow :=
  { snp := some ("8_60009_T_G".toList), chr := some ("8".toList)
    bp := some ("60009".toList), a1 := some ("G".toList), a2 := some ("T".toList)
    other := [] }

def c1_rowAC : NRow :=
  { snp := some ("8_60009_A_C".toList), chr := some ("8".toList)
    bp := some ("60009".toList), a1 := some ("C".toList), a2 := some ("A".toList)
    other := [] }

def c2_input : Table :=
  { hasSNP := false, hasCHR := true, hasBP := true, hasA2 := true, hasA1 := true
    rows := [{ snp := none, chr := some ("23".toList), bp := some ("100".toList)
               a2 := some ("G".toList), a1 := some ("A".toList) }] }

def c2_output : Table :=
  { hasSNP := true, hasCHR := true, hasBP := true, hasA2 := true, hasA1 := true
    rows := [{ snp := some ("23_100_G_A".toList), chr := some ("X".toList)
               bp := some ("100".toList), a2 := some ("G".toList)
               a1 := some ("A".toList) }] }

def c3_row : NRow :=
  { snp := some ("8_60009_T_G".toList), chr := some ("8".toList)
    bp := some ("60009".toList), a1 := some ("G".toList), a2 := some ("T".toList)
    other := [] }

def c3_shard : List (Str × Str) := [("chr8_60009_G_T".toList, "rs999".toList)]

def c7_nshard : List (Str × Str) :=
  [("chr1_100_A_G".toList, "rs1".toList), ("chr1_100_A_G".toList, "rs2".toList)]

def c7_nrow : NRow :=
  { snp := some ("1_100_A_G".toList), chr := some ("1".toList)
    bp := some ("100".toList), a1 := some ("G".toList), a2 := some ("A".toList)
    other := [] }

def c7_lshard : List (Str × Str) :=
  [("rs10".toList, "chr1_100_A_G".toList), ("rs10".toList, "chr1_200_A_G".toList)]

def c7_lrow : LRow :=
  { snp := some ("rs10".toList), chr := none, bp := none, other := [] }

def c9_input : Table :=
  { hasSNP := true, hasCHR := true, hasBP := true, hasA2 := true, hasA1 := true
    rows := [{ snp := some ("foo".toList), chr := some ("12345".toList)
               bp := some ("100".toList), a2 := some ("AG".toList)
               a1 := some ("T".toList) }] }

def c9_w : Table :=
  { hasSNP := true, hasCHR := true, hasBP := true, hasA2 := true, hasA1 := true
    rows := [{ snp := some ("rs123".toList), chr := none, bp := none
               a2 := none, a1 := none },
             { snp := some ("8_60009_T_G".toList), chr := some ("8".toList)
               bp := some ("60009".toList), a2 := some ("T".toList)
               a1 := some ("G".toList) }] }

/-! ## Theorems -/

example : containsNeale ("8_60009_T_G".toList) = true := by decide

example : findNeale ("chr8_60009_T_G".toList) = some ("8_60009_T_G".toList) := by decide

example : findNeale ("12345_100_AG_T".toList) = some ("45_100_AG_T".toList) := by decide

example : containsNeale ("rs123".toList) = false := by decide

example : findRs ("rs1283920:384923:A:G".toList) = some ("rs1283920".toList) := by decide

example : rcComp ("8_60009_c_a".toList) = "8_60009_G_T".toList := by decide

example : rcComp ("8_60009_T_G".toList) = "8_60009_A_C".toList := by decide

example :
    ensure_four
      { hasSNP := false, hasCHR := true, hasBP := true, hasA2 := true, hasA1 := true
        rows := [{ snp := none, chr := some ("23".toList), bp := some ("100".toList)
                   a2 := some ("G".toList), a1 := some ("A".toList) }] }
    = some { hasSNP := true, hasCHR := true, hasBP := true, hasA2 := true, hasA1 := true
             rows := [{ snp := some ("23_100_G_A".toList), chr := some ("X".toList)
                        bp := some ("100".toList), a2 := some ("G".toList)
                        a1 := some ("A".toList) }] } := by decide

example : claimShapeC2 ("rs123".toList) = true := by decide

example : claimShapeC2 ("8_60009_T_G".toList) = true := by decide

example : claimShapeC2 ("23_100_G_A".toList) = false := by decide

example : canonPositional ("23_100_G_A".toList) = true := by decide

example : canonPositional ("12345_100_AG_T".toList) = false := by decide

/-! ## Character-level lemmas -/
theorem lowChar_of_not_upper {c : Char} (h : ¬(65 ≤ c.toNat ∧ c.toNat ≤ 90)) :
    lowChar c = c := by
  simp [lowChar, h]

theorem upChar_of_lt_97 {c : Char} (h : c.toNat < 97) : upChar c = c := by
  have : ¬(97 ≤ c.toNat ∧ c.toNat ≤ 122) := by omega
  simp [upChar, this]

theorem isDigitCh_bounds {c : Char} (h : isDigitCh c = true) :
    48 ≤ c.toNat ∧ c.toNat ≤ 57 := by
  simpa [isDigitCh] using h

theorem lowChar_digit {c : Char} (h : isDigitCh c = true) : lowChar c = c := by
  have := isDigitCh_bounds h
  exact lowChar_of_not_upper (by omega)

theorem upChar_digit {c : Char} (h : isDigitCh c = true) : upChar c = c := by
  have := isDigitCh_bounds h
  exact upChar_of_lt_97 (by omega)

theorem ne_of_toNat_ne {c d : Char} (h : c.toNat ≠ d.toNat) : c ≠ d := by
  intro hc; exact h (by rw [hc])

theorem isSepCh_digit {c : Char} (h : isDigitCh c = true) : isSepCh c = false := by
  have hb := isDigitCh_bounds h
  have h1 : ('_').toNat = 95 := rfl
  have h2 : (':').toNat = 58 := rfl
  have h3 : ('+').toNat = 43 := rfl
  simp only [isSepCh, Bool.or_eq_false_iff, decide_eq_false_iff_not]
  refine ⟨⟨ne_of_toNat_ne ?_, ne_of_toNat_ne ?_⟩, ne_of_toNat_ne ?_⟩ <;> omega

theorem isRCh_digit {c : Char} (h : isDigitCh c = true) : isRCh c = false := by
  have hb := isDigitCh_bounds h
  have h1 : ('r').toNat = 114 := rfl
  have h2 : ('R').toNat = 82 := rfl
  simp only [isRCh, Bool.or_eq_false_iff, decide_eq_false_iff_not]
  exact ⟨ne_of_toNat_ne (by omega), ne_of_toNat_ne (by omega)⟩

/-! ## Run-matching lemmas -/
theorem takeWhile_all {p : Char → Bool} {l : Str} (h : ∀ a ∈ l, p a = true) :
    l.takeWhile p = l := by
  induction l with
  | nil => rfl
  | cons a t ih =>
    have ha := h a (by simp)
    simp [List.takeWhile_cons, ha, ih fun b hb => h b (by simp [hb])]

theorem dropWhile_all {p : Char → Bool} {l : Str} (h : ∀ a ∈ l, p a = true) :
    l.dropWhile p = [] := by
  induction l with
  | nil => rfl
  | cons a t ih =>
    have ha := h a (by simp)
    simp [List.dropWhile_cons, ha, ih fun b hb => h b (by simp [hb])]

theorem takeWhile_append_stop {p : Char → Bool} {xs ys : Str} {y : Char}
    (hxs : ∀ a ∈ xs, p a = true) (hy : p y = false) :
    (xs ++ y :: ys).takeWhile p = xs := by
  induction xs with
  | nil => simp [List.takeWhile_cons, hy]
  | cons a t ih =>
    have ha := hxs a (by simp)
    simp [List.takeWhile_cons, ha, ih fun b hb => hxs b (by simp [hb])]

theorem dropWhile_append_stop {p : Char → Bool} {xs ys : Str} {y : Char}
    (hxs : ∀ a ∈ xs, p a = true) (hy : p y = false) :
    (xs ++ y :: ys).dropWhile p = y :: ys := by
  induction xs with
  | nil => simp [List.dropWhile_cons, hy]
  | cons a t ih =>
    have ha := hxs a (by simp)
    simp [List.dropWhile_cons, ha, ih fun b hb => hxs b (by simp [hb])]

theorem takeRun_append {p : Char → Bool} {xs ys : Str} {y : Char}
    (hne : xs ≠ []) (hxs : ∀ a ∈ xs, p a = true) (hy : p y = false) :
    takeRun p (xs ++ y :: ys) = some (xs, y :: ys) := by
  simp only [takeRun, takeWhile_append_stop hxs hy, dropWhile_append_stop hxs hy]
  simp [List.isEmpty_iff, hne]

theorem takeRun_all {p : Char → Bool} {xs : Str} (hne : xs ≠ [])
    (hxs : ∀ a ∈ xs, p a = true) :
    takeRun p xs = some (xs, []) := by
  simp only [takeRun, takeWhile_all hxs, dropWhile_all hxs]
  simp [List.isEmpty_iff, hne]

/-! ## Matching canonical positional identifiers -/
theorem isChromU_isChromCh {c : Char} (h : isChromU c = true) : isChromCh c = true := by
  simp only [isChromU, Bool.or_eq_true, decide_eq_true_eq] at h
  rcases h with (hd | hX) | hY
  · simp [isChromCh, hd]
  · subst hX; decide
  · subst hY; decide

theorem isBaseU_isBaseCh {c : Char} (h : isBaseU c = true) : isBaseCh c = true := by
  simp only [isBaseU, Bool.or_eq_true, decide_eq_true_eq] at h
  rcases h with ((h | h) | h) | h <;> subst h <;> decide

theorem isDigitCh_not_base {c : Char} (h : isDigitCh c = true) : isBaseCh c = false := by
  have hb := isDigitCh_bounds h
  have e1 : ('A').toNat = 65 := rfl
  have e2 : ('G').toNat = 71 := rfl
  have e3 : ('C').toNat = 67 := rfl
  have e4 : ('T').toNat = 84 := rfl
  have e5 : ('a').toNat = 97 := rfl
  have e6 : ('g').toNat = 103 := rfl
  have e7 : ('c').toNat = 99 := rfl
  have e8 : ('t').toNat = 116 := rfl
  simp only [isBaseCh, Bool.or_eq_false_iff, decide_eq_false_iff_not]
  exact ⟨⟨⟨⟨⟨⟨⟨ne_of_toNat_ne (by omega), ne_of_toNat_ne (by omega)⟩,
    ne_of_toNat_ne (by omega)⟩, ne_of_toNat_ne (by omega)⟩,
    ne_of_toNat_ne (by omega)⟩, ne_of_toNat_ne (by omega)⟩,
    ne_of_toNat_ne (by omega)⟩, ne_of_toNat_ne (by omega)⟩

theorem matchAfterChrom_canon {p x y : Str}
    (hp : p ≠ []) (hpd : ∀ a ∈ p, isDigitCh a = true)
    (hx : x ≠ []) (hxb : ∀ a ∈ x, isBaseCh a = true)
    (hy : y ≠ []) (hyb : ∀ a ∈ y, isBaseCh a = true) :
    matchAfterChrom ('_' :: (p ++ '_' :: (x ++ '_' :: y)))
      = some ('_' :: (p ++ '_' :: (x ++ '_' :: y))) := by
  have hsep : isSepCh '_' = true := by decide
  have hdu : isDigitCh '_' = false := by decide
  have hbu : isBaseCh '_' = false := by decide
  simp only [matchAfterChrom, hsep, if_true, takeRun_append hp hpd hdu,
    takeRun_append hx hxb hbu, takeRun_all hy hyb]
  cases x with
  | nil => exact absurd rfl hx
  | cons b bt => simp [List.append_assoc]

theorem matchNealeAt_canon {c p x y : Str}
    (hc : c = [] → False) (hcl : c.length = 1 ∨ c.length = 2)
    (hcc : ∀ a ∈ c, isChromCh a = true)
    (hp : p ≠ []) (hpd : ∀ a ∈ p, isDigitCh a = true)
    (hx : x ≠ []) (hxb : ∀ a ∈ x, isBaseCh a = true)
    (hy : y ≠ []) (hyb : ∀ a ∈ y, isBaseCh a = true) :
    matchNealeAt (c ++ '_' :: (p ++ '_' :: (x ++ '_' :: y)))
      = some (c ++ '_' :: (p ++ '_' :: (x ++ '_' :: y))) := by
  have hxu : isChromCh '_' = false := by decide
  have hsu : isSepCh '_' = true := by decide
  have hmac := matchAfterChrom_canon hp hpd hx hxb hy hyb
  match c, hcl with
  | [a], _ =>
    have ha := hcc a (by simp)
    simp [matchNealeAt, ha, hxu, hsu, hmac]
  | [a, b], _ =>
    have ha := hcc a (by simp)
    have hb := hcc b (by simp)
    simp [matchNealeAt, ha, hb, hmac]

theorem findNeale_of_matchNealeAt {s : Str} (h : matchNealeAt s = some s) :
    findNeale s = some s := by
  cases s with
  | nil => simp [matchNealeAt] at h
  | cons a t => simp [findNeale, h]

/-! ## Negative search lemmas -/
theorem matchAfterChrom_noSep {l : Str} (h : ∀ a ∈ l, isSepCh a = false) :
    matchAfterChrom l = none := by
  cases l with
  | nil => rfl
  | cons a t => simp [matchAfterChrom, h a (by simp)]

theorem matchNealeAt_noSep {l : Str} (h : ∀ a ∈ l, isSepCh a = false) :
    matchNealeAt l = none := by
  match l with
  | [] => rfl
  | [a] => rfl
  | a :: b :: rest =>
    have hb := h b (by simp)
    have hr : ∀ x ∈ rest, isSepCh x = false := fun x hx => h x (by simp [hx])
    have h1 : matchAfterChrom rest = none := matchAfterChrom_noSep hr
    have h2 : matchAfterChrom (b :: rest) = none :=
      matchAfterChrom_noSep fun x hx => h x (by simp at hx ⊢; tauto)
    simp [matchNealeAt, h1, h2, hb]

theorem findNeale_noSep {l : Str} (h : ∀ a ∈ l, isSepCh a = false) :
    findNeale l = none := by
  induction l with
  | nil => rfl
  | cons a t ih =>
    have h1 : matchNealeAt (a :: t) = none := matchNealeAt_noSep h
    simp [findNeale, h1, ih fun x hx => h x (by simp [hx])]

theorem matchRsAt_noR {l : Str} (h : ∀ a ∈ l, isRCh a = false) :
    matchRsAt l = none := by
  match l with
  | [] => rfl
  | [a] => rfl
  | [a, b] => rfl
  | a :: b :: c :: rest => simp [matchRsAt, h a (by simp)]

theorem findRs_noR {l : Str} (h : ∀ a ∈ l, isRCh a = false) :
    findRs l = none := by
  induction l with
  | nil => rfl
  | cons a t ih =>
    have h1 : matchRsAt (a :: t) = none := matchRsAt_noR h
    simp [findRs, h1, ih fun x hx => h x (by simp [hx])]

/-! ## Split / join lemmas -/
theorem splitUnd_ne_nil (s : Str) : splitUnd s ≠ [] := by
  cases s with
  | nil => simp [splitUnd]
  | cons c t =>
    simp only [splitUnd]
    split
    · simp
    · cases h : splitUnd t with
      | nil => simp
      | cons a r => simp

theorem joinUnd_splitUnd (s : Str) : joinUnd (splitUnd s) = s := by
  induction s with
  | nil => rfl
  | cons c t ih =>
    by_cases hc : c = '_'
    · subst hc
      simp only [splitUnd, if_pos rfl]
      cases h : splitUnd t with
      | nil => exact absurd h (splitUnd_ne_nil t)
      | cons a r =>
        rw [h] at ih
        simp only [joinUnd]
        rw [show joinUnd (a :: r) = t from ih]
        rfl
    · simp only [splitUnd, if_neg hc]
      cases h : splitUnd t with
      | nil => exact absurd h (splitUnd_ne_nil t)
      | cons a r =>
        rw [h] at ih
        cases r with
        | nil => simpa [joinUnd] using congrArg (c :: ·) ih
        | cons b r2 => simpa [joinUnd] using congrArg (c :: ·) ih

/-! ## Fixpoint lemmas for canonical identifiers -/
theorem map_id_of_fix {f : Char → Char} {s : Str} (h : ∀ a ∈ s, f a = a) :
    s.map f = s := by
  induction s with
  | nil => rfl
  | cons a t ih => simp [h a (by simp), ih fun b hb => h b (by simp [hb])]

theorem ne_nil_of_not_isEmpty {l : Str} (h : (!l.isEmpty) = true) : l ≠ [] := by
  simpa [List.isEmpty_iff] using h

theorem canonPositional_spec {s : Str} (h : canonPositional s = true) :
    ∃ c p x y, s = c ++ '_' :: (p ++ '_' :: (x ++ '_' :: y))
      ∧ (c.length = 1 ∨ c.length = 2) ∧ (∀ a ∈ c, isChromU a = true)
      ∧ p ≠ [] ∧ (∀ a ∈ p, isDigitCh a = true)
      ∧ x ≠ [] ∧ (∀ a ∈ x, isBaseU a = true)
      ∧ y ≠ [] ∧ (∀ a ∈ y, isBaseU a = true) := by
  unfold canonPositional at h
  split at h
  case h_2 => exact absurd h (by simp)
  case h_1 c p x y heq =>
    refine ⟨c, p, x, y, ?_, ?_⟩
    · have hj := joinUnd_splitUnd s
      rw [heq] at hj
      exact hj.symm
    · simp only [Bool.and_eq_true, Bool.or_eq_true, beq_iff_eq, List.all_eq_true] at h
      obtain ⟨⟨⟨⟨⟨⟨⟨hcl, hcc⟩, hpe⟩, hpd⟩, hxe⟩, hxb⟩, hye⟩, hyb⟩ := h
      exact ⟨hcl, hcc, ne_nil_of_not_isEmpty hpe, hpd, ne_nil_of_not_isEmpty hxe, hxb,
        ne_nil_of_not_isEmpty hye, hyb⟩

/-- every character of a canonical positional identifier is a chromosome
character, an upper-case base, or `_` -/
theorem canonPositional_chars {s : Str} (h : canonPositional s = true) :
    ∀ a ∈ s, isChromU a = true ∨ isBaseU a = true ∨ a = '_' := by
  obtain ⟨c, p, x, y, hs, _, hcc, _, hpd, _, hxb, _, hyb⟩ := canonPositional_spec h
  subst hs
  intro a ha
  simp only [List.mem_append, List.mem_cons] at ha
  rcases ha with hc | rfl | hp | rfl | hx | rfl | hy
  · exact Or.inl (hcc a hc)
  · exact Or.inr (Or.inr rfl)
  · exact Or.inl (by simp [isChromU, hpd a hp])
  · exact Or.inr (Or.inr rfl)
  · exact Or.inr (Or.inl (hxb a hx))
  · exact Or.inr (Or.inr rfl)
  · exact Or.inr (Or.inl (hyb a hy))

theorem isChromU_not_r {a : Char} (h : isChromU a = true) : isRCh a = false := by
  simp only [isChromU, Bool.or_eq_true, decide_eq_true_eq] at h
  rcases h with (hd | rfl) | rfl
  · exact isRCh_digit hd
  · decide
  · decide

theorem isBaseU_not_r {a : Char} (h : isBaseU a = true) : isRCh a = false := by
  simp only [isBaseU, Bool.or_eq_true, decide_eq_true_eq] at h
  rcases h with ((rfl | rfl) | rfl) | rfl <;> decide

theorem canonPositional_noRs {s : Str} (h : canonPositional s = true) :
    containsRs s = false := by
  have hchars := canonPositional_chars h
  have hfind : findRs s = none := by
    apply findRs_noR
    intro a ha
    rcases hchars a ha with hc | hb | rfl
    · exact isChromU_not_r hc
    · exact isBaseU_not_r hb
    · decide
  simp [containsRs, hfind]

theorem canonPositional_findNeale {s : Str} (h : canonPositional s = true) :
    findNeale s = some s := by
  obtain ⟨c, p, x, y, hs, hcl, hcc, hpe, hpd, hxe, hxb, hye, hyb⟩ := canonPositional_spec h
  subst hs
  apply findNeale_of_matchNealeAt
  exact matchNealeAt_canon
    (fun hc => by subst hc; simp at hcl) hcl
    (fun a ha => isChromU_isChromCh (hcc a ha)) hpe hpd
    hxe (fun a ha => isBaseU_isBaseCh (hxb a ha))
    hye (fun a ha => isBaseU_isBaseCh (hyb a ha))

theorem canonPositional_containsNeale {s : Str} (h : canonPositional s = true) :
    containsNeale s = true := by
  simp [containsNeale, canonPositional_findNeale h]

theorem canonPositional_sepNorm {s : Str} (h : canonPositional s = true) :
    sepNorm s = s := by
  apply map_id_of_fix
  intro a ha
  have hne : ¬(a = ':' ∨ a = '+') := by
    rcases canonPositional_chars h a ha with hc | hb | rfl
    · simp only [isChromU, Bool.or_eq_true, decide_eq_true_eq] at hc
      rcases hc with (hd | rfl) | rfl
      · have hbd := isDigitCh_bounds hd
        have e2 : (':').toNat = 58 := rfl
        have e3 : ('+').toNat = 43 := rfl
        rintro (rfl | rfl) <;> omega
      · decide
      · decide
    · simp only [isBaseU, Bool.or_eq_true, decide_eq_true_eq] at hb
      rcases hb with ((rfl | rfl) | rfl) | rfl <;> decide
    · decide
  simp [hne]

theorem canonPositional_upper {s : Str} (h : canonPositional s = true) :
    upperStr s = s := by
  apply map_id_of_fix
  intro a ha
  apply upChar_of_lt_97
  rcases canonPositional_chars h a ha with hc | hb | rfl
  · simp only [isChromU, Bool.or_eq_true, decide_eq_true_eq] at hc
    rcases hc with (hd | rfl) | rfl
    · have := isDigitCh_bounds hd; omega
    · decide
    · decide
  · simp only [isBaseU, Bool.or_eq_true, decide_eq_true_eq] at hb
    rcases hb with ((rfl | rfl) | rfl) | rfl <;> decide
  · decide

/-! ## Fixpoint lemmas for canonical rsIDs -/
theorem exactRsLower_spec {s : Str} (h : exactRsLower s = true) :
    ∃ d ds, s = 'r' :: 's' :: d :: ds ∧ isDigitCh d = true ∧ ∀ a ∈ ds, isDigitCh a = true := by
  unfold exactRsLower at h
  split at h
  case h_2 => exact absurd h (by simp)
  case h_1 c1 c2 d ds =>
    simp only [Bool.and_eq_true, decide_eq_true_eq, List.all_eq_true] at h
    obtain ⟨⟨⟨rfl, rfl⟩, hd⟩, hds⟩ := h
    exact ⟨d, ds, rfl, hd, hds⟩

theorem exactRsLower_findRs {s : Str} (h : exactRsLower s = true) :
    findRs s = some s := by
  obtain ⟨d, ds, hs, hd, hds⟩ := exactRsLower_spec h
  subst hs
  have hm : matchRsAt ('r' :: 's' :: d :: ds) = some ('r' :: 's' :: d :: ds) := by
    simp [matchRsAt, isRCh, isSCh, hd, takeWhile_all hds]
  simp [findRs, hm]

theorem exactRsLower_containsRs {s : Str} (h : exactRsLower s = true) :
    containsRs s = true := by
  simp [containsRs, exactRsLower_findRs h]

theorem exactRsLower_lower {s : Str} (h : exactRsLower s = true) :
    lowerStr s = s := by
  obtain ⟨d, ds, hs, hd, hds⟩ := exactRsLower_spec h
  subst hs
  apply map_id_of_fix
  intro a ha
  simp only [List.mem_cons] at ha
  rcases ha with rfl | rfl | rfl | hmem
  · decide
  · decide
  · exact lowChar_digit hd
  · exact lowChar_digit (hds a hmem)

theorem exactRsLower_findNeale_none {s : Str} (h : exactRsLower s = true) :
    findNeale s = none := by
  obtain ⟨d, ds, hs, hd, hds⟩ := exactRsLower_spec h
  subst hs
  apply findNeale_noSep
  intro a ha
  simp only [List.mem_cons] at ha
  rcases ha with rfl | rfl | rfl | hmem
  · decide
  · decide
  · exact isSepCh_digit hd
  · exact isSepCh_digit (hds a hmem)

theorem exactRsLower_noNeale {s : Str} (h : exactRsLower s = true) :
    containsNeale s = false := by
  simp [containsNeale, exactRsLower_findNeale_none h]

theorem rowCanonical_parts {r : Row} (h : rowCanonical r = true) :
    (∃ s, r.snp = some s ∧ (exactRsLower s = true ∨ canonPositional s = true))
    ∧ (r.chr = none ∨ ∃ c, r.chr = some c ∧ replaceFirst chrL c = c ∧ upperStr c = c
        ∧ c ≠ ("23".toList) ∧ c ≠ ("24".toList))
    ∧ (r.a1 = none ∨ ∃ a, r.a1 = some a ∧ upperStr a = a)
    ∧ (r.a2 = none ∨ ∃ a, r.a2 = some a ∧ upperStr a = a) := by
  simp only [rowCanonical, Bool.and_eq_true] at h
  obtain ⟨⟨⟨h1, h2⟩, h3⟩, h4⟩ := h
  refine ⟨?_, ?_, ?_, ?_⟩
  · cases hs : r.snp with
    | none => rw [hs] at h1; exact absurd h1 (by simp)
    | some s =>
      rw [hs] at h1
      exact ⟨s, rfl, by simpa using h1⟩
  · cases hc : r.chr with
    | none => exact Or.inl rfl
    | some c =>
      rw [hc] at h2
      simp only [Bool.and_eq_true, beq_iff_eq, Bool.not_eq_true', beq_eq_false_iff_ne] at h2
      exact Or.inr ⟨c, rfl, h2.1.1.1, h2.1.1.2, h2.1.2, h2.2⟩
  · cases ha : r.a1 with
    | none => exact Or.inl rfl
    | some a => rw [ha] at h3; exact Or.inr ⟨a, rfl, by simpa using h3⟩
  · cases ha : r.a2 with
    | none => exact Or.inl rfl
    | some a => rw [ha] at h4; exact Or.inr ⟨a, rfl, by simpa using h4⟩

theorem snp_fix_of_canonical {r : Row} (h : rowCanonical r = true) :
    ∃ s, r.snp = some s ∧ containsAccepted s = true := by
  obtain ⟨⟨s, hs, hshape⟩, -, -, -⟩ := rowCanonical_parts h
  refine ⟨s, hs, ?_⟩
  rcases hshape with hrs | hpos
  · simp [containsAccepted, exactRsLower_containsRs hrs]
  · simp [containsAccepted, canonPositional_containsNeale hpos]

theorem cleanRsidRow_fix {r : Row} (h : rowCanonical r = true) : cleanRsidRow r = r := by
  obtain ⟨⟨s, hs, hshape⟩, -, -, -⟩ := rowCanonical_parts h
  obtain ⟨sn, ch, b, a2f, a1f⟩ := r
  simp only [Row.mk.injEq] at hs ⊢
  rcases hshape with hrs | hpos
  · simp [cleanRsidRow, hs, containsRsO, exactRsLower_containsRs hrs, whenO,
      exactRsLower_findRs hrs, exactRsLower_lower hrs]
  · simp [cleanRsidRow, hs, containsRsO, canonPositional_noRs hpos, whenO]

theorem cleanNealeRow_fix {r : Row} (h : rowCanonical r = true) : cleanNealeRow r = r := by
  obtain ⟨⟨s, hs, hshape⟩, -, -, -⟩ := rowCanonical_parts h
  obtain ⟨sn, ch, b, a2f, a1f⟩ := r
  simp only [Row.mk.injEq] at hs ⊢
  rcases hshape with hrs | hpos
  · simp [cleanNealeRow, hs, containsNealeO, containsNeale, exactRsLower_findNeale_none hrs, whenO]
  · have hf := canonPositional_findNeale hpos
    simp [cleanNealeRow, hs, containsNealeO, containsNeale, hf, whenO,
      canonPositional_sepNorm hpos, canonPositional_upper hpos]

theorem fixCaseRow_fix {r : Row} (h : rowCanonical r = true) : fixCaseRow r = r := by
  obtain ⟨-, hchr, ha1, ha2⟩ := rowCanonical_parts h
  obtain ⟨sn, ch, b, a2f, a1f⟩ := r
  simp only [fixCaseRow, Row.mk.injEq]
  refine ⟨trivial, ?_, trivial, ?_, ?_⟩
  · rcases hchr with hnone | ⟨c, hc, hrep, hup, -, -⟩
    · simp at hnone; simp [hnone]
    · simp at hc; simp [hc, hrep, hup]
  · rcases ha2 with hnone | ⟨a, ha, hup⟩
    · simp at hnone; simp [hnone]
    · simp at ha; simp [ha, hup]
  · rcases ha1 with hnone | ⟨a, ha, hup⟩
    · simp at hnone; simp [hnone]
    · simp at ha; simp [ha, hup]

theorem chr2324Row_fix {r : Row} (h : rowCanonical r = true) : chr2324Row r = r := by
  obtain ⟨-, hchr, -, -⟩ := rowCanonical_parts h
  obtain ⟨sn, ch, b, a2f, a1f⟩ := r
  simp only [chr2324Row, Row.mk.injEq]
  rcases hchr with hnone | ⟨c, hc, -, -, h23, h24⟩
  · simp at hnone; simp [hnone, whenO]
  · simp at hc
    rw [show ("23".toList : Str) = ['2', '3'] from rfl] at h23
    rw [show ("24".toList : Str) = ['2', '4'] from rfl] at h24
    simp [hc, whenO, h23, h24]

theorem repairRow_fix {r : Row} (h : rowCanonical r = true) : repairRow r = r := by
  obtain ⟨s, hs, hacc⟩ := snp_fix_of_canonical h
  obtain ⟨sn, ch, b, a2f, a1f⟩ := r
  simp only [Row.mk.injEq] at hs
  simp [repairRow, hs, containsAcceptedO, notO, hacc, whenO]

theorem acceptedRow_of_canonical {r : Row} (h : rowCanonical r = true) :
    acceptedRow r = true := by
  obtain ⟨s, hs, hacc⟩ := snp_fix_of_canonical h
  simp [acceptedRow, hs, containsAcceptedO, hacc]

theorem filter_eq_self_of_all {p : Row → Bool} {l : List Row}
    (h : ∀ a ∈ l, p a = true) : l.filter p = l := by
  induction l with
  | nil => rfl
  | cons a t ih => simp [List.filter, h a (by simp), ih fun b hb => h b (by simp [hb])]

theorem map_rowfix {f : Row → Row} {l : List Row} (h : ∀ a ∈ l, f a = a) :
    l.map f = l := by
  induction l with
  | nil => rfl
  | cons a t ih => simp [h a (by simp), ih fun b hb => h b (by simp [hb])]

/-- a second `ensure_four` pass is the identity on tables with all five
columns present all of whose rows are canonical in the sense of
`rowCanonical` -/
theorem ensure_four_fix (t : Table)
    (h1 : t.hasSNP = true) (h2 : t.hasCHR = true) (h3 : t.hasBP = true)
    (h4 : t.hasA2 = true) (h5 : t.hasA1 = true)
    (hr : ∀ r ∈ t.rows, rowCanonical r = true) :
    ensure_four t = some t := by
  obtain ⟨f1, f2, f3, f4, f5, rows⟩ := t
  simp only at h1 h2 h3 h4 h5 hr
  subst h1; subst h2; subst h3; subst h4; subst h5
  simp only [ensure_four, Bool.true_or, Bool.and_self, if_true]
  rw [map_rowfix fun r hrw => cleanRsidRow_fix (hr r hrw)]
  rw [map_rowfix fun r hrw => cleanNealeRow_fix (hr r hrw)]
  rw [map_rowfix fun r hrw => fixCaseRow_fix (hr r hrw)]
  rw [map_rowfix fun r hrw => chr2324Row_fix (hr r hrw)]
  rw [map_rowfix fun r hrw => repairRow_fix (hr r hrw)]
  rw [filter_eq_self_of_all fun r hrw => acceptedRow_of_canonical (hr r hrw)]

/-! ## `lift_rsids` equals first-match resolution -/
theorem map_fix {α : Type} {f : α → α} {l : List α} (h : ∀ a ∈ l, f a = a) :
    l.map f = l := by
  induction l with
  | nil => rfl
  | cons a t ih => simp [h a (by simp), ih fun b hb => h b (by simp [hb])]

theorem orElse_none_thunk {α : Type} (x : Option α) :
    (x.orElse fun _ => none) = x := by cases x <;> rfl

theorem orElse_assoc_thunk {α : Type} (x : Option α) (f g : Unit → Option α) :
    ((x.orElse f).orElse g) = x.orElse fun _ => ((f ()).orElse g) := by
  cases x <;> rfl

theorem orElse_firstMatch (sh : List (Str × Str)) (rest : List (List (Str × Str)))
    (snp : Option Str) :
    ((assocLookup (prepLookup sh) snp).orElse fun _ => firstMatch rest snp)
      = firstMatch (sh :: rest) snp := by
  cases h : assocLookup (prepLookup sh) snp <;> simp [firstMatch, h, Option.orElse]

theorem lrFold_eq (shards : List (List (Str × Str))) (prs : List (LRow × Option Str)) :
    shards.foldl (fun prs sh => lrStep sh prs) prs
      = prs.map fun pr => (pr.1, pr.2.orElse fun _ => firstMatch shards pr.1.snp) := by
  induction shards generalizing prs with
  | nil =>
    simp only [List.foldl_nil, firstMatch]
    exact (map_fix fun pr _ => by rw [orElse_none_thunk]).symm
  | cons sh rest ih =>
    simp only [List.foldl_cons]
    by_cases hall : prs.all (fun pr => pr.2.isSome) = true
    · rw [show lrStep sh prs = prs from by simp [lrStep, hall]]
      rw [ih]
      apply List.map_congr_left
      intro pr hpr
      have hsome := List.all_eq_true.mp hall pr hpr
      obtain ⟨v, hv⟩ := Option.isSome_iff_exists.mp (by simpa using hsome)
      simp [hv, Option.orElse]
    · rw [show lrStep sh prs
          = prs.map (fun pr => (pr.1, pr.2.orElse fun _ => assocLookup (prepLookup sh) pr.1.snp))
        from by simp [lrStep, hall]]
      rw [ih, List.map_map]
      apply List.map_congr_left
      intro pr hpr
      simp only [Function.comp]
      rw [orElse_assoc_thunk, orElse_firstMatch]

theorem lift_rsids_eq_firstMatch (rows : List LRow) (shards : List (List (Str × Str))) :
    lift_rsids rows shards = rows.map fun r => applyID r (firstMatch shards r.snp) := by
  rw [show lift_rsids rows shards
      = List.map (fun pr => applyID pr.1 pr.2)
          (List.foldl (fun prs sh => lrStep sh prs)
            (List.map (fun r => (r, (none : Option Str))) rows) shards)
    from rfl]
  rw [lrFold_eq, List.map_map, List.map_map]
  apply List.map_congr_left
  intro r hr
  simp [Function.comp, Option.orElse]

/-! ## Ambiguous keys resolve to no match -/
theorem two_mem_length_ge {α : Type} {l : List α} {a b : α}
    (ha : a ∈ l) (hb : b ∈ l) (hab : a ≠ b) : 2 ≤ l.length := by
  induction l with
  | nil => simp at ha
  | cons x t ih =>
    simp only [List.mem_cons] at ha hb
    rcases ha with rfl | ha2
    · rcases hb with hb1 | hb2
      · exact absurd hb1.symm hab
      · have h1 : 0 < t.length := List.length_pos.mpr (List.ne_nil_of_mem hb2)
        simp only [List.length_cons]; omega
    · rcases hb with rfl | hb2
      · have h1 : 0 < t.length := List.length_pos.mpr (List.ne_nil_of_mem ha2)
        simp only [List.length_cons]; omega
      · have := ih ha2 hb2
        simp only [List.length_cons]; omega

/-- a key associated with two distinct values in a raw shard survives neither
`unique()` pass and is therefore unresolvable -/
theorem prepLookup_ambiguous {l : List (Str × Str)} {k v1 v2 : Str}
    (h1 : (k, v1) ∈ l) (h2 : (k, v2) ∈ l) (hne : v1 ≠ v2) :
    assocLookup (prepLookup l) (some k) = none := by
  have hd1 : (k, v1) ∈ l.dedup := List.mem_dedup.mpr h1
  have hd2 : (k, v2) ∈ l.dedup := List.mem_dedup.mpr h2
  have hf1 : (k, v1) ∈ l.dedup.filter (fun q => q.1 == k) :=
    List.mem_filter.mpr ⟨hd1, by simp⟩
  have hf2 : (k, v2) ∈ l.dedup.filter (fun q => q.1 == k) :=
    List.mem_filter.mpr ⟨hd2, by simp⟩
  have hlen : 2 ≤ (l.dedup.filter fun q => q.1 == k).length :=
    two_mem_length_ge hf1 hf2 (by simp [hne])
  have hnone : (prepLookup l).find? (fun p => p.1 == k) = none := by
    apply List.find?_eq_none.mpr
    intro p hp hpk
    have hmem := List.mem_filter.mp hp
    obtain ⟨hpu, hcond⟩ := hmem
    have hpk2 : p.1 = k := by simpa using hpk
    rw [hpk2] at hcond
    have : (l.dedup.filter fun q => q.1 == k).length = 1 := by simpa using hcond
    omega
  simp [assocLookup, hnone]

/-! ## Unmatched records in `neale_wrangler` -/
theorem mkCand_row (r : NRow) : (mkCand r).row = r := rfl

theorem mkCand_snp2 {r : NRow} {s : Str} (hs : r.snp = some s)
    (hn : containsNeale s = true) : (mkCand r).snp2 = some (chrL ++ s) := by
  simp [mkCand, hs, containsNealeO, hn, whenO, addChrO]

theorem get?_map_eq {α β : Type} (f : α → β) (l : List α) (i : Nat) :
    (l.map f).get? i = (l.get? i).map f := by
  induction l generalizing i with
  | nil => simp
  | cons a t ih => cases i <;> simp [ih]

theorem guardedVal_none {sub : List NCand} {keyF : NCand → Option Str}
    {lk : List (Str × Str)} {x : NCand}
    (h : assocLookup lk (keyF x) = none) : guardedVal sub keyF lk x = none := by
  simp only [guardedVal]
  split
  · rfl
  · exact h

/-- every mapper entry comes from the chromosome block of a shard found in
the association list -/
theorem nwMapper_mem {cand : List NCand} {rows : List NRow}
    {shards : List (Str × List (Str × Str))} {e : Option Str × Option Str}
    (he : e ∈ nwMapper cand rows shards) :
    ∃ c pr, (shards.find? fun p => p.1 == c) = some pr
      ∧ e ∈ chromMapper cand c pr.2 := by
  have main : ∀ (l : List Str) (acc : List (Option Str × Option Str)),
      e ∈ l.foldl
        (fun acc c =>
          match shards.find? fun p => p.1 == c with
          | some pr => acc ++ chromMapper cand c pr.2
          | none => acc) acc →
      e ∈ acc ∨ ∃ c pr, (shards.find? fun p => p.1 == c) = some pr
        ∧ e ∈ chromMapper cand c pr.2 := by
    intro l
    induction l with
    | nil => intro acc he2; exact Or.inl he2
    | cons c t ih =>
      intro acc he2
      simp only [List.foldl_cons] at he2
      cases hf : shards.find? fun p => p.1 == c with
      | none =>
        rw [hf] at he2
        exact ih acc he2
      | some pr =>
        rw [hf] at he2
        rcases ih _ he2 with h1 | h1
        · rcases List.mem_append.mp h1 with h2 | h2
          · exact Or.inl h2
          · exact Or.inr ⟨c, pr, hf, h2⟩
        · exact Or.inr h1
  rcases main (nwChrs rows shards) [] he with h1 | h1
  · simp at h1
  · exact h1

/-- an entry of one chromosome block: its key is the prefixed identifier of
some record of that chromosome, and when all four orientation lookups for
that record miss, its value falls through to that same identifier -/
theorem chromMapper_mem {cand : List NCand} {c : Str} {sh : List (Str × Str)}
    {e : Option Str × Option Str} (he : e ∈ chromMapper cand c sh) :
    ∃ x, x ∈ cand ∧ (x.row.chr == some c) = true ∧ e.1 = x.snp2
      ∧ (assocLookup (prepLookup sh) x.snp2 = none →
          assocLookup (prepLookup sh) x.snpSwitch = none →
          assocLookup (prepLookup sh) x.rcSnp = none →
          assocLookup (prepLookup sh) x.rcSnpSwitch = none →
          e.2 = x.snp2) := by
  simp only [chromMapper] at he
  obtain ⟨x, hxsub, rfl⟩ := List.mem_map.mp he
  obtain ⟨hxc, hfilt⟩ := List.mem_filter.mp hxsub
  refine ⟨x, hxc, hfilt, rfl, ?_⟩
  intro h1 h2 h3 h4
  simp [guardedVal_none h1, guardedVal_none h2, guardedVal_none h3, guardedVal_none h4,
    Option.orElse]

theorem find?_pred {α : Type} {p : α → Bool} {l : List α} {a : α}
    (h : l.find? p = some a) : p a = true ∧ a ∈ l := by
  induction l with
  | nil => simp at h
  | cons x t ih =>
    by_cases hp : p x = true
    · rw [List.find?_cons_of_pos _ hp] at h
      obtain rfl := Option.some.inj h
      exact ⟨hp, by simp⟩
    · rw [List.find?_cons_of_neg _ (by simpa using hp)] at h
      obtain ⟨h1, h2⟩ := ih h
      exact ⟨h1, by simp [h2]⟩

/-- a key every one of whose dictionary entries maps it to itself is left
unchanged by `pl.col("SNP").replace(mapper_dict)` -/
theorem pyReplace_self {m : List (Option Str × Option Str)} {k : Option Str}
    (h : ∀ e ∈ m, e.1 = k → e.2 = k) : pyReplace m k = k := by
  unfold pyReplace pyDictFind
  cases hf : m.reverse.find? fun p => p.1 == k with
  | none => rfl
  | some e =>
    obtain ⟨hbeq, hmemrev⟩ := find?_pred hf
    have hmem : e ∈ m := List.mem_reverse.mp hmemrev
    have he2 := h e hmem (by simpa using hbeq)
    simp [he2]

theorem neale_wrangler_shape (rows : List NRow) (shards : List (Str × List (Str × Str))) :
    ∃ m, neale_wrangler rows shards
      = (rows.map mkCand).map fun x => { x.row with snp := pyReplace m x.snp2 } :=
  ⟨_, rfl⟩

theorem all_filter_self {p : Row → Bool} (l : List Row) : (l.filter p).all p = true := by
  rw [List.all_eq_true]
  intro a ha
  exact (List.mem_filter.mp ha).2

/-- C1: the spec asserts that with a shard mapping the key for 8_60009_G_T
to rs999, the allele-switched record 8_60009_T_G resolves to rs999 via the
SNP_SWITCH orientation and 8_60009_A_C resolves to rs999 via a
reverse-complement orientation.  Evaluating the embedded `neale_wrangler`
shows the second resolution works (via RC_SNP_SWITCH) but the first does
NOT: `SNP_SWITCH` is built lower-cased (line 346 of the source), the exact
join can never hit the upper-case shard key `chr8_60009_G_T`, and the
switched record comes out unresolved as `chr8_60009_T_G`. -/
theorem c1_theorem :
    (neale_wrangler [c1_rowTG, c1_rowAC] [("8".toList, c1_shard)]).map (·.snp)
      = [some ("chr8_60009_T_G".toList), some ("rs999".toList)]
    ∧ some ("chr8_60009_T_G".toList) ≠ some ("rs999".toList) := by decide

/-- C2 counterexample: an accepted input with chromosome 23 survives
`ensure_four` with identifier `23_100_G_A`, whose chromosome component is
`23` — not one of 1-22, X, Y — so the claimed output shape is violated
(the 23→X rewrite of lines 88-93 touches only the CHR column, never the
already-synthesized SNP). -/
theorem c2_counterexample :
    ensure_four c2_input = some c2_output
    ∧ c2_output.rows.map (·.snp) = [some ("23_100_G_A".toList)]
    ∧ claimShapeC2 ("23_100_G_A".toList) = false := by decide

/-- C2 amended: every record surviving `ensure_four` has a non-null
identifier that CONTAINS a match of the accepted pattern (rsID or neale
positional, chromosome component any 1-2 characters over digits/X/Y); the
identifier need not be exactly such a match and the chromosome component is
not restricted to 1-22, X, Y. -/
theorem c2_theorem (t u : Table) (h : ensure_four t = some u) :
    u.rows.all acceptedRow = true := by
  simp only [ensure_four] at h
  split at h
  · have h2 := Option.some.inj h
    subst h2
    exact all_filter_self _
  · simp at h

theorem c2_witness : c2_output.rows.all acceptedRow = true :=
  c2_theorem c2_input c2_output (by decide)

/-- C3 counterexample: a positional record whose chromosome has no shard at
all is returned with identifier `chr8_60009_T_G`, which is NOT
byte-identical to its input identifier `8_60009_T_G`: the `"chr"` prefix
added in lines 335-340 is never removed from unresolved records. -/
theorem c3_counterexample :
    (neale_wrangler [c3_row] []).map (·.snp) = [some ("chr8_60009_T_G".toList)]
    ∧ (neale_wrangler [c3_row] []).map (·.snp) ≠ [c3_row.snp] := by decide

/-- C3 amended: a positional-shape record none of whose four orientation
keys matches in its chromosome's lookup shard (or whose chromosome has no
shard) is returned with its identifier equal to `"chr" +` the input
identifier — byte-identical except for the added prefix — provided every
record in the frame that shares its prefixed identifier string also has all
four orientation keys unmatched in its own chromosome's shard.  The proviso
is necessary: the mapper dictionary of lines 449-450 is keyed by identifier
string with the last entry winning, so a same-keyed record that does
resolve would rewrite this record's identifier as well. -/
theorem c3_theorem (rows : List NRow) (shards : List (Str × List (Str × Str)))
    (r : NRow) (s : Str) (i : Nat)
    (hget : rows.get? i = some r)
    (hs : r.snp = some s) (hn : containsNeale s = true)
    (hmiss : ∀ q ∈ rows, (mkCand q).snp2 = (mkCand r).snp2 →
        ∀ c pr, q.chr = some c → (shards.find? fun p => p.1 == c) = some pr →
          assocLookup (prepLookup pr.2) (mkCand q).snp2 = none
          ∧ assocLookup (prepLookup pr.2) (mkCand q).snpSwitch = none
          ∧ assocLookup (prepLookup pr.2) (mkCand q).rcSnp = none
          ∧ assocLookup (prepLookup pr.2) (mkCand q).rcSnpSwitch = none) :
    (neale_wrangler rows shards).get? i = some { r with snp := some (chrL ++ s) } := by
  have hentry : ∀ e ∈ nwMapper (rows.map mkCand) rows shards,
      e.1 = (mkCand r).snp2 → e.2 = (mkCand r).snp2 := by
    intro e he hkey
    obtain ⟨c, pr, hf, hcm⟩ := nwMapper_mem he
    obtain ⟨x, hxc, hchr, hx1, hval⟩ := chromMapper_mem hcm
    obtain ⟨q, hq, rfl⟩ := List.mem_map.mp hxc
    have hqchr : q.chr = some c := by simpa [mkCand_row] using hchr
    have hsnp2eq : (mkCand q).snp2 = (mkCand r).snp2 := hx1.symm.trans hkey
    obtain ⟨k1, k2, k3, k4⟩ := hmiss q hq hsnp2eq c pr hqchr hf
    rw [hval k1 k2 k3 k4]
    exact hsnp2eq
  have hpr : pyReplace (nwMapper (rows.map mkCand) rows shards) (mkCand r).snp2
      = (mkCand r).snp2 := pyReplace_self hentry
  have hsnp2 := mkCand_snp2 hs hn
  rw [hsnp2] at hpr
  rw [show neale_wrangler rows shards
      = (rows.map mkCand).map (fun x =>
          { x.row with snp := pyReplace (nwMapper (rows.map mkCand) rows shards) x.snp2 })
    from rfl]
  rw [get?_map_eq, get?_map_eq, hget]
  simp [mkCand_row, hsnp2, hpr]

example :
    (neale_wrangler
      [ c3_row,
        { snp := some ("9_100_A_G".toList), chr := some ("9".toList)
          bp := some ("100".toList), a1 := some ("G".toList), a2 := some ("A".toList)
          other := [] } ]
      [("8".toList, c3_shard),
       ("9".toList, [("chr9_100_A_G".toList, "rs77".toList)])]).map (·.snp)
    = [some ("chr8_60009_T_G".toList), some ("rs77".toList)] := by decide

theorem c3_witness :
    (neale_wrangler [c3_row] [("8".toList, c3_shard)]).get? 0
      = some { c3_row with snp := some (chrL ++ ("8_60009_T_G".toList)) } :=
  c3_theorem [c3_row] [("8".toList, c3_shard)] c3_row ("8_60009_T_G".toList) 0
    (by decide) (by decide) (by decide)
    (fun q hq hsnp c pr hc hf => by
      have hq2 : q = c3_row := by simpa using hq
      subst hq2
      have hc2 : c = ("8".toList) := by
        have h3 : (some ("8".toList) : Option Str) = some c := hc
        exact (Option.some.inj h3).symm
      subst hc2
      have heval : (List.find? (fun p => p.1 == ("8".toList))
          [(("8".toList), c3_shard)]) = some (("8".toList), c3_shard) := by decide
      rw [heval] at hf
      obtain rfl := Option.some.inj hf
      exact ⟨by decide, by decide, by decide, by decide⟩)

/-- C4: the spec says `lift_over` fails with a `ResourceError` when the
external tool path or the chain-file path is missing, without invoking the
tool.  In the source (lines 160-168) the `IOError(...)` expressions are
constructed but never raised, and the tool path is never checked at all, so
`lift_over`'s behavior is completely independent of the three
path-existence facts and the tool is invoked regardless: with both paths
missing the call still proceeds and succeeds. -/
theorem c4_theorem :
    (∀ (a b c a2 b2 c2 : Bool) (m : Option (List Str)),
        lift_over a b c m = lift_over a2 b2 c2 m)
    ∧ lift_over true false false (some [("anyline".toList)])
      = ([LiftEvent.wroteInput, LiftEvent.invokedTool, LiftEvent.removedIntermediates],
          Except.ok [("anyline".toList)]) :=
  ⟨fun _ _ _ _ _ _ _ => rfl, rfl⟩

/-- C5 counterexample: when the mapped-output file is empty, parsing raises
(`NoDataError`) before `os.remove` is reached — there is no `try/finally` —
so the temporary interval files are NOT deleted on a parsing failure,
contradicting the claim that they are deleted in both outcomes. -/
theorem c5_counterexample :
    (lift_over true true true (some [])).2 = Except.error LiftErr.noData
    ∧ (lift_over true true true (some [])).1.contains LiftEvent.removedIntermediates
        = false :=
  ⟨rfl, rfl⟩

/-- C5 amended: the temporary interval files are deleted whenever parsing
the mapped output SUCCEEDS; on a parsing failure the exception propagates
before the removal and the files are left behind. -/
theorem c5_theorem (a b c : Bool) (m : Option (List Str)) (ls : List Str)
    (h : (lift_over a b c m).2 = Except.ok ls) :
    (lift_over a b c m).1.contains LiftEvent.removedIntermediates = true := by
  cases m with
  | none => simp [lift_over] at h
  | some l =>
    cases l with
    | nil => simp [lift_over] at h
    | cons x t => rfl

theorem c5_witness :
    (lift_over true true true (some [("mappedline".toList)])).1.contains
      LiftEvent.removedIntermediates = true :=
  c5_theorem true true true (some [("mappedline".toList)]) [("mappedline".toList)] rfl

/-- C6 counterexample: on an empty mapped-output file the engine does not
return a table of zero records — `pl.read_csv` raises `NoDataError` on an
empty file, so the call errors out instead. -/
theorem c6_counterexample :
    (lift_over true true true (some [])).2 = Except.error LiftErr.noData
    ∧ (lift_over true true true (some [])).2 ≠ Except.ok ([] : List Str) :=
  ⟨rfl, fun h => Except.noConfusion h⟩

/-- C6 amended: an empty mapped-output file always makes `lift_over` raise
the empty-input parse error (`NoDataError`) rather than return an empty
table. -/
theorem c6_theorem (a b c : Bool) :
    (lift_over a b c (some [])).2 = Except.error LiftErr.noData := rfl

/-- C7: a key carrying two distinct counterpart values inside a shard
resolves to no match rather than to either value: the shared
`unique().unique(subset=key, keep="none")` preparation removes every such
key, so the lookup returns null.  The two concrete conjuncts exercise this
end to end: an ambiguous positional key leaves the `neale_wrangler` record
unresolved (it keeps its prefixed identifier), and an ambiguous rsID leaves
the `lift_rsids` record entirely unchanged. -/
theorem c7_theorem :
    (∀ (l : List (Str × Str)) (k v1 v2 : Str),
        (k, v1) ∈ l → (k, v2) ∈ l → v1 ≠ v2 →
        assocLookup (prepLookup l) (some k) = none)
    ∧ lift_rsids [c7_lrow] [c7_lshard] = [c7_lrow]
    ∧ (neale_wrangler [c7_nrow] [("1".toList, c7_nshard)]).map (·.snp)
        = [some ("chr1_100_A_G".toList)] :=
  ⟨fun _ _ _ _ h1 h2 hne => prepLookup_ambiguous h1 h2 hne, by decide, by decide⟩

theorem c7_witness :
    assocLookup (prepLookup c7_nshard) (some ("chr1_100_A_G".toList)) = none :=
  c7_theorem.1 c7_nshard ("chr1_100_A_G".toList) ("rs1".toList) ("rs2".toList)
    (by decide) (by decide) (by decide)

/-- C8: `lift_rsids` equals pointwise first-match resolution: each record's
chromosome and position are rewritten from the first shard (in visitation
order) that resolves its rsID — a later shard never overwrites an earlier
resolution, because line 262 keeps a non-null `ID` — and a record matched
in no shard keeps its prior, possibly null, chromosome and position. -/
theorem c8_theorem :
    ∀ (rows : List LRow) (shards : List (List (Str × Str))),
      lift_rsids rows shards = rows.map fun r => applyID r (firstMatch shards r.snp) :=
  lift_rsids_eq_firstMatch

/-- C9 counterexample: `ensure_four` is not idempotent.  The input row with
free-text identifier `foo` and CHR `12345` is repaired (line 102) to
identifier `12345_100_AG_T`, which merely CONTAINS a positional match;
a second run re-extracts the contained match and rewrites the identifier to
`45_100_AG_T`, so running `ensure_four` on its own output changes it. -/
theorem c9_counterexample :
    (ensure_four c9_input).isSome = true
    ∧ (ensure_four c9_input).bind ensure_four ≠ ensure_four c9_input := by decide

/-- C9 amended: `ensure_four` is idempotent on every table whose rows are
canonical — identifier exactly of an accepted shape (not merely containing
a match), chromosome absent or already in its fixed form, alleles absent or
already upper-case — which covers all outputs except those whose repaired
identifier properly contains a positional match. -/
theorem c9_theorem (t : Table)
    (h1 : t.hasSNP = true) (h2 : t.hasCHR = true) (h3 : t.hasBP = true)
    (h4 : t.hasA2 = true) (h5 : t.hasA1 = true)
    (hr : ∀ r ∈ t.rows, rowCanonical r = true) :
    ensure_four t = some t :=
  ensure_four_fix t h1 h2 h3 h4 h5 hr

theorem c9_witness : ensure_four c9_w = some c9_w :=
  c9_theorem c9_w rfl rfl rfl rfl rfl (by decide)

/-- C10: `neale_wrangler` preserves row count and row order and leaves
every column other than `SNP` byte-identical to the input; the helper
columns `SNP_SWITCH`, `RC_SNP`, `RC_SNP_SWITCH` are dropped before
returning (line 451), so the output rows carry exactly the input schema. -/
theorem c10_theorem :
    ∀ (rows : List NRow) (shards : List (Str × List (Str × Str))),
      (neale_wrangler rows shards).map nrowFrame = rows.map nrowFrame
      ∧ (neale_wrangler rows shards).length = rows.length := by
  intro rows shards
  obtain ⟨m, hm⟩ := neale_wrangler_shape rows shards
  refine ⟨?_, ?_⟩
  · rw [hm, List.map_map, List.map_map]
    exact List.map_congr_left fun r _ => rfl
  · rw [hm]
    simp
